import Mathlib

/-!
Verification of the styled-line builder (`build_styled_content` in
`src/tui/src/utils.rs` of wllfaria/httpretty).

The builder walks the input text character by character together with an
ordered queue of style captures popped from the front, and emits display
lines made of styled runs.  We embed the scan loop as a step function on an
explicit state record, applied by a fold over the indexed characters, which
is exactly the shape of the Rust `for (i, c) in content.chars().enumerate()`
loop (every `continue` ends the iteration after a state update).

Style values: `Span::from(string)` carries the unstyled default style
(`Style::default()`), `Span::from(string).fg(colors.normal.white)` carries a
white-foreground style, and each capture carries an opaque highlighter
style.  We model these as distinct constructors; capture styles are drawn
from an infinite supply (`custom n`).
-/

/-- A display style.  `plain` is `Style::default()` (what `String::into()`
produces for a `Span`), `fgWhite` is the default style with the theme's
white foreground (`.fg(colors.normal.white)`), and `custom n` ranges over
the opaque styles a highlighter capture may carry. -/
inductive Style where
  | plain : Style
  | fgWhite : Style
  | custom : Nat → Style
deriving DecidableEq, Repr

/-- A highlighter capture (`Capture` in the source): a half-open index
range `[start, stop)` with a style.  The source field `end` is a reserved
word in Lean, so it is named `stop` here. -/
structure Capture where
  start : Nat
  stop : Nat
  style : Style
deriving DecidableEq, Repr

/-- A styled run (`Span` in ratatui): a piece of text with one style. -/
structure Span where
  content : List Char
  style : Style
deriving DecidableEq, Repr

/-- A display line is an ordered list of runs. -/
abbrev Line := List Span

/-- `is_endline` from the source: `matches!(c, '\n')`. -/
def is_endline (c : Char) : Bool := c == '\n'

/-- The loop state of `build_styled_content`: accumulated lines, the line
being built, the token accumulator, the current capture (popped lazily),
and the rest of the highlight queue. -/
structure BState where
  lines : List Line
  line : Line
  token : List Char
  cap : Option Capture
  queue : List Capture
deriving DecidableEq, Repr

/-- One iteration of the scan loop of `build_styled_content`, for the
character `c` at index `i`.  The branches appear in source order. -/
def step (s : BState) (i : Nat) (c : Char) : BState :=
  match s.cap with
  | some capture =>
    if i = capture.start ∧ s.token = [] then
      { s with token := [c] }
    else if i = capture.start then
      { s with line := s.line ++ [⟨s.token, Style.fgWhite⟩], token := [c] }
    else if i = capture.stop ∧ is_endline c then
      { s with lines := s.lines ++ [s.line ++ [⟨s.token, capture.style⟩]],
               line := [], token := [],
               cap := s.queue.head?, queue := s.queue.tail }
    else if i = capture.stop then
      { s with line := s.line ++ [⟨s.token, capture.style⟩], token := [c],
               cap := s.queue.head?, queue := s.queue.tail }
    else if is_endline c then
      { s with lines := s.lines ++ [s.line ++ [⟨s.token, capture.style⟩]],
               line := [], token := [] }
    else
      { s with token := s.token ++ [c] }
  | none =>
    if s.token ≠ [] ∧ ¬ is_endline c then
      { s with line := s.line ++ [⟨s.token, Style.fgWhite⟩], token := [c] }
    else if is_endline c then
      { s with lines := s.lines ++ [s.line ++ [⟨s.token, Style.fgWhite⟩]],
               line := [], token := [] }
    else
      { s with token := s.token ++ [c] }

/-- The scan loop: fold `step` over the characters with their indices. -/
def scan : List Char → Nat → BState → BState
  | [], _, s => s
  | c :: cs, i, s => scan cs (i + 1) (step s i c)

/-- The state before the loop: empty accumulators, the current capture is
the popped front of the queue (`highlights.pop_front()`). -/
def initState (highlights : List Capture) : BState :=
  ⟨[], [], [], highlights.head?, highlights.tail⟩

/-- The unconditional trailing flush after the loop:
`current_line.push(current_token.clone().into())` (an unstyled span) and
`styled_lines.push(current_line)`. -/
def finish (s : BState) : List Line :=
  s.lines ++ [s.line ++ [⟨s.token, Style.plain⟩]]

/-- `build_styled_content` from `src/tui/src/utils.rs`, with the
highlighter's output passed as the explicit queue argument. -/
def build_styled_content (content : List Char) (highlights : List Capture) :
    List Line :=
  finish (scan content 0 (initState highlights))

/-- The text of a line: its runs' contents concatenated. -/
def lineText (l : Line) : List Char := (l.map Span.content).flatten

/-- The characters of one run paired with that run's style. -/
def spanChars (r : Span) : List (Char × Option Style) :=
  r.content.map (fun c => (c, some r.style))

/-- The characters of a line, each paired with its run's style. -/
def lineChars (l : Line) : List (Char × Option Style) :=
  (l.map spanChars).flatten

/-- The rendered characters of an output, in order: each run character
paired with its run's style, and between consecutive lines the consumed
line break paired with no style. -/
def outChars (ls : List Line) : List (Char × Option Style) :=
  List.intercalate [('\n', none)] (ls.map lineChars)

/-- Index `j` is covered by some capture of `q`. -/
def covered (q : List Capture) (j : Nat) : Prop :=
  ∃ a, a ∈ q ∧ a.start ≤ j ∧ j < a.stop

instance (q : List Capture) (j : Nat) : Decidable (covered q j) := by
  unfold covered
  exact List.decidableBEx _ q

-- Sanity checks of the embedding against hand-traces of the source.
example :
    build_styled_content ['a', 'b', 'c'] [⟨1, 2, Style.custom 1⟩] =
      [[⟨['a'], Style.fgWhite⟩, ⟨['b'], Style.custom 1⟩,
        ⟨['c'], Style.plain⟩]] := by decide

example :
    build_styled_content ['x', '\n', 'y'] [] =
      [[⟨['x'], Style.fgWhite⟩], [⟨['y'], Style.plain⟩]] := by decide

example :
    build_styled_content ['a', '\n', 'b'] [⟨0, 3, Style.custom 1⟩] =
      [[⟨['a'], Style.custom 1⟩], [⟨['b'], Style.plain⟩]] := by decide

example :
    build_styled_content ['a', 'b', '\n', 'c', 'd'] [⟨0, 2, Style.custom 1⟩] =
      [[⟨['a', 'b'], Style.custom 1⟩],
       [⟨['c'], Style.fgWhite⟩, ⟨['d'], Style.plain⟩]] := by decide

example :
    build_styled_content ['\n'] [⟨0, 1, Style.custom 1⟩] =
      [[⟨['\n'], Style.plain⟩]] := by decide

example :
    build_styled_content ['a', '\n', 'b'] [⟨1, 3, Style.custom 1⟩] =
      [[⟨['a'], Style.fgWhite⟩, ⟨['\n', 'b'], Style.plain⟩]] := by decide

example :
    build_styled_content ['a', '\n', 'b'] [⟨2, 3, Style.custom 1⟩] =
      [[⟨['a'], Style.custom 1⟩], [⟨['b'], Style.plain⟩]] := by decide

example :
    build_styled_content ['a', 'b', 'c', 'd', 'e']
        [⟨0, 2, Style.custom 1⟩, ⟨2, 4, Style.custom 2⟩] =
      [[⟨['a', 'b'], Style.custom 1⟩, ⟨['c', 'd'], Style.custom 2⟩,
        ⟨['e'], Style.plain⟩]] := by decide

example : build_styled_content [] [] = [[⟨[], Style.plain⟩]] := by decide

example :
    outChars [[⟨['a'], Style.custom 1⟩], [⟨['b'], Style.plain⟩]] =
      [('a', some (Style.custom 1)), ('\n', none), ('b', some Style.plain)] := by
  decide

/-! ## Reconstruction machinery

`emitted s` is the text already consumed by the scan, read back from the
state: each completed line contributes its text followed by the consumed
line break, then the line under construction, then the token accumulator.
-/

/-- Text of a list of completed lines, each followed by its consumed
line break. -/
def linesText (ls : List Line) : List Char :=
  (ls.map (fun l => lineText l ++ ['\n'])).flatten

/-- The input characters consumed so far, reconstructed from the state. -/
def emitted (s : BState) : List Char :=
  linesText s.lines ++ lineText s.line ++ s.token

theorem lineText_append (l : Line) (r : Span) :
    lineText (l ++ [r]) = lineText l ++ r.content := by
  simp [lineText]

theorem linesText_append (ls : List Line) (l : Line) :
    linesText (ls ++ [l]) = linesText ls ++ (lineText l ++ ['\n']) := by
  simp [linesText]

theorem is_endline_eq {c : Char} (h : is_endline c) : c = '\n' := by
  simpa [is_endline] using h

/-- Each loop iteration consumes exactly its character. -/
theorem emitted_step (s : BState) (i : Nat) (c : Char) :
    emitted (step s i c) = emitted s ++ [c] := by
  obtain ⟨ls, l, tk, cap, qs⟩ := s
  cases cap with
  | some capture =>
    simp only [step]
    split_ifs with h1 h2 h3 h4 h5
    · simp [emitted, h1.2]
    · simp [emitted, lineText_append]
    · rw [is_endline_eq h3.2]
      simp [emitted, linesText_append, lineText_append, lineText]
    · simp [emitted, lineText_append]
    · rw [is_endline_eq h5]
      simp [emitted, linesText_append, lineText_append, lineText]
    · simp [emitted]
  | none =>
    simp only [step]
    split_ifs with h1 h2
    · simp [emitted, lineText_append]
    · rw [is_endline_eq h2]
      simp [emitted, linesText_append, lineText_append, lineText]
    · simp [emitted]

theorem emitted_scan (l : List Char) :
    ∀ (i : Nat) (s : BState), emitted (scan l i s) = emitted s ++ l := by
  induction l with
  | nil => intro i s; simp [scan]
  | cons c cs ih =>
    intro i s
    simp [scan, ih, emitted_step]

theorem intercalate_cons_of_ne {α : Type} (sep x : List α) (l : List (List α))
    (h : l ≠ []) :
    List.intercalate sep (x :: l) = x ++ sep ++ List.intercalate sep l := by
  cases l with
  | nil => exact absurd rfl h
  | cons y ys => simp [List.intercalate, List.intersperse]

theorem intercalate_append_singleton {α : Type} (sep : List α) :
    ∀ (xs : List (List α)) (y : List α),
      List.intercalate sep (xs ++ [y]) =
        (xs.map (fun x => x ++ sep)).flatten ++ y := by
  intro xs
  induction xs with
  | nil => intro y; simp [List.intercalate]
  | cons x xs ih =>
    intro y
    rw [List.cons_append, intercalate_cons_of_ne _ _ _ (by simp), ih]
    simp

/-- Joining the output's line texts with a line break between consecutive
lines gives back exactly the consumed text plus pending accumulators. -/
theorem intercalate_finish (s : BState) :
    List.intercalate ['\n'] ((finish s).map lineText) = emitted s := by
  unfold finish emitted
  rw [List.map_append, List.map_singleton, intercalate_append_singleton,
    lineText_append]
  simp [linesText, lineText, List.map_map, Function.comp_def]

/-- Reconstruction: for every input text and every queue, the output lines
joined with line breaks reproduce the input exactly. -/
theorem build_reconstruction (T : List Char) (q : List Capture) :
    List.intercalate ['\n'] ((build_styled_content T q).map lineText) = T := by
  unfold build_styled_content
  rw [intercalate_finish, emitted_scan]
  simp [emitted, initState, linesText, lineText]

/-! ## Capture tracking and the trailing flush -/

/-- The captures still held by a state: the active one plus the queue. -/
def capSet (s : BState) : List Capture := s.cap.toList ++ s.queue

theorem head?_toList_append_tail {α : Type} (l : List α) :
    l.head?.toList ++ l.tail = l := by
  cases l <;> simp

/-- A step never introduces captures. -/
theorem capSet_step (s : BState) (i : Nat) (c : Char) :
    ∀ x ∈ capSet (step s i c), x ∈ capSet s := by
  obtain ⟨ls, l, tk, cap, qs⟩ := s
  cases cap with
  | some capture =>
    simp only [step]
    split_ifs with h1 h2 h3 h4 h5 <;> intro x hx <;>
      simp only [capSet, head?_toList_append_tail] at hx ⊢ <;>
      simp_all
  | none =>
    simp only [step]
    split_ifs with h1 h2 <;> intro x hx <;> exact hx

theorem capSet_scan (l : List Char) :
    ∀ (i : Nat) (s : BState), ∀ x ∈ capSet (scan l i s), x ∈ capSet s := by
  induction l with
  | nil => intro i s x hx; exact hx
  | cons c cs ih =>
    intro i s x hx
    exact capSet_step s i c x (ih (i + 1) (step s i c) x hx)

theorem capSet_initState (q : List Capture) : capSet (initState q) = q := by
  simp [capSet, initState, head?_toList_append_tail]

theorem scan_append (l₁ l₂ : List Char) :
    ∀ (i : Nat) (s : BState),
      scan (l₁ ++ l₂) i s = scan l₂ (i + l₁.length) (scan l₁ i s) := by
  induction l₁ with
  | nil => intro i s; simp [scan]
  | cons c cs ih =>
    intro i s
    show scan (cs ++ l₂) (i + 1) (step s i c) =
      scan l₂ (i + (cs.length + 1)) (scan cs (i + 1) (step s i c))
    rw [ih]
    have heq : i + (cs.length + 1) = i + 1 + cs.length := by omega
    rw [heq]

/-- Processing a line break clears the accumulators and completes a line,
provided the active capture (if any) does not start at this index. -/
theorem step_endline_clears (s : BState) (i : Nat)
    (hcap : ∀ a, s.cap = some a → i ≠ a.start) :
    (step s i '\n').token = [] ∧ (step s i '\n').line = [] ∧
      ∃ ℓ, (step s i '\n').lines = s.lines ++ [ℓ] := by
  obtain ⟨ls, l, tk, cap, qs⟩ := s
  cases cap with
  | some capture =>
    have hne : i ≠ capture.start := hcap capture rfl
    by_cases hstop : i = capture.stop
    · simp only [step]
      rw [if_neg (fun h => hne h.1), if_neg hne,
        if_pos ⟨hstop, (by decide : is_endline '\n' = true)⟩]
      exact ⟨rfl, rfl, _, rfl⟩
    · simp only [step]
      rw [if_neg (fun h => hne h.1), if_neg hne,
        if_neg (fun h => hstop h.1), if_neg hstop,
        if_pos (by decide : is_endline '\n' = true)]
      exact ⟨rfl, rfl, _, rfl⟩
  | none =>
    simp only [step]
    rw [if_neg (fun h => h.2 (by decide : is_endline '\n' = true)),
      if_pos (by decide : is_endline '\n' = true)]
    exact ⟨rfl, rfl, _, rfl⟩

/-- If the input ends in a line break and no capture starts at that final
index, the output ends in an extra Line holding a single empty unstyled
run, after at least one completed line. -/
theorem build_endline_trailing (T : List Char) (q : List Capture)
    (hlast : T.getLast? = some '\n')
    (hq : ∀ a ∈ q, a.start ≠ T.length - 1) :
    (build_styled_content T q).getLast? = some [⟨[], Style.plain⟩] ∧
      2 ≤ (build_styled_content T q).length := by
  have hne : T ≠ [] := by
    intro h
    rw [h] at hlast
    simp at hlast
  have hgl : T.getLast hne = '\n' := by
    have := List.getLast?_eq_getLast T hne
    rw [hlast] at this
    exact (Option.some_injective _ this.symm)
  have hTeq : T.dropLast ++ ['\n'] = T := by
    have h1 := List.dropLast_append_getLast hne
    rw [hgl] at h1
    exact h1
  have hlen : T.dropLast.length = T.length - 1 := by simp
  set s' := scan T.dropLast 0 (initState q) with hs'
  have hscan : scan T 0 (initState q) = step s' (T.length - 1) '\n' := by
    conv_lhs => rw [← hTeq]
    rw [scan_append]
    simp [scan, hlen]
  have hcap : ∀ a, s'.cap = some a → (T.length - 1) ≠ a.start := by
    intro a ha
    have hmem : a ∈ capSet s' := by
      simp [capSet, ha]
    have : a ∈ capSet (initState q) := capSet_scan T.dropLast 0 (initState q) a hmem
    rw [capSet_initState] at this
    exact fun h => hq a this (h.symm)
  obtain ⟨htk, hln, ℓ, hls⟩ := step_endline_clears s' (T.length - 1) hcap
  unfold build_styled_content
  rw [hscan]
  unfold finish
  rw [htk, hln, hls]
  refine ⟨by simp, by simp⟩

/-- C1 (amended): for every input text and every annotation queue, joining
the run texts of the output lines with one line break between consecutive
lines reproduces the input exactly.  If the input ends in a line break and,
as forced by the counterexample, no annotation's start index equals the
index of that final break, the output additionally carries one extra
trailing Line holding a single empty default-styled run. -/
theorem claim_C1_amended (T : List Char) (q : List Capture) :
    List.intercalate ['\n'] ((build_styled_content T q).map lineText) = T ∧
    (T.getLast? = some '\n' → (∀ a ∈ q, a.start ≠ T.length - 1) →
      (build_styled_content T q).getLast? = some [⟨[], Style.plain⟩] ∧
        2 ≤ (build_styled_content T q).length) :=
  ⟨build_reconstruction T q, fun h1 h2 => build_endline_trailing T q h1 h2⟩

/-- C1 witness: the amended claim evaluated at text `"a\n"` with the empty
queue: reconstruction holds and the output has the empty trailing Line. -/
theorem claim_C1_witness :
    List.intercalate ['\n']
        ((build_styled_content ['a', '\n'] []).map lineText) = ['a', '\n'] ∧
      (build_styled_content ['a', '\n'] []).getLast? =
        some [⟨[], Style.plain⟩] ∧
      2 ≤ (build_styled_content ['a', '\n'] []).length :=
  ⟨(claim_C1_amended ['a', '\n'] []).1,
    (claim_C1_amended ['a', '\n'] []).2 (by decide) (by simp)⟩

/-- C1 counterexample: text `"\n"` with the well-formed queue
`[{start 0, end 1}]` (sorted, non-overlapping, start < end, endpoints at
most the length 1).  The text ends in a line break, but the output is one
single Line whose run holds the break itself — there is no extra empty
trailing Line, refuting the trailing-Line part of the claim. -/
theorem claim_C1_counterexample :
    build_styled_content ['\n'] [⟨0, 1, Style.custom 1⟩] =
        [[⟨['\n'], Style.plain⟩]] ∧
      (build_styled_content ['\n'] [⟨0, 1, Style.custom 1⟩]).length = 1 := by
  decide

/-! ## Empty input and the trailing flush style -/

/-- C7: building the empty text returns exactly one Line holding a single
empty default-styled Run — for every queue, hence in particular for the
empty queue, the only one the highlighter produces on empty input — and
every output of the builder contains at least one Line. -/
theorem claim_C7 :
    (∀ q : List Capture, build_styled_content [] q = [[⟨[], Style.plain⟩]]) ∧
      ∀ (T : List Char) (q : List Capture),
        1 ≤ (build_styled_content T q).length := by
  constructor
  · intro q; rfl
  · intro T q
    simp [build_styled_content, finish]

/-- C2 (amended): after the scan completes, the remaining token is flushed
as a final Run that always carries the unstyled default style — also when
an annotation is still active.  For text `"a\nb"` with the annotation
`{start 0, end 3, style S1}` spanning the break, the output is
`[[Run "a" S1], [Run "b" default]]`: the second Run carries the default
style, not S1. -/
theorem claim_C2_amended :
    (∀ (T : List Char) (q : List Capture), ∃ pre ℓ tok,
      build_styled_content T q = pre ++ [ℓ ++ [⟨tok, Style.plain⟩]]) ∧
    build_styled_content ['a', '\n', 'b'] [⟨0, 3, Style.custom 1⟩] =
      [[⟨['a'], Style.custom 1⟩], [⟨['b'], Style.plain⟩]] := by
  constructor
  · intro T q
    exact ⟨_, _, _, rfl⟩
  · decide

/-- C2 counterexample: for text `"a\nb"` with annotation
`{start 0, end 3, style S1}`, the claimed output `[[Run "a" S1],
[Run "b" S1]]` is not what the builder produces (the final Run is
default-styled, not S1-styled). -/
theorem claim_C2_counterexample :
    build_styled_content ['a', '\n', 'b'] [⟨0, 3, Style.custom 1⟩] ≠
      [[⟨['a'], Style.custom 1⟩], [⟨['b'], Style.custom 1⟩]] := by
  decide

/-- C5 (amended): for text `"ab\ncd"` with annotation
`{start 0, end 2, style S1}`, the first Line is the single Run
`("ab", S1)`, but the second Line consists of two one-character Runs:
`("c", white-fg default)` and `("d", unstyled default)` — the unannotated
characters are not merged. -/
theorem claim_C5_amended :
    build_styled_content ['a', 'b', '\n', 'c', 'd'] [⟨0, 2, Style.custom 1⟩] =
      [[⟨['a', 'b'], Style.custom 1⟩],
       [⟨['c'], Style.fgWhite⟩, ⟨['d'], Style.plain⟩]] := by
  decide

/-- C5 counterexample: in the scenario of the claim the second Line holds
two Runs, not the claimed single contiguous default-styled Run `"cd"`. -/
theorem claim_C5_counterexample :
    (build_styled_content ['a', 'b', '\n', 'c', 'd']
        [⟨0, 2, Style.custom 1⟩])[1]? =
      some [⟨['c'], Style.fgWhite⟩, ⟨['d'], Style.plain⟩] ∧
    ((build_styled_content ['a', 'b', '\n', 'c', 'd']
        [⟨0, 2, Style.custom 1⟩])[1]?).map List.length = some 2 := by
  decide

/-! ## Clamping of out-of-range endpoints (C6)

The scan only ever compares the loop index `i` (which stays below the text
length) for equality against capture endpoints; it never indexes the text
by them.  Hence replacing each endpoint by its minimum with the text length
cannot change any comparison, and the output is unchanged.
-/

/-- A capture with both endpoints clamped to the text length. -/
def clampTo (n : Nat) (a : Capture) : Capture :=
  ⟨min a.start n, min a.stop n, a.style⟩

/-- Two states equal except that the second carries clamped captures. -/
def QRel (n : Nat) (s t : BState) : Prop :=
  t.lines = s.lines ∧ t.line = s.line ∧ t.token = s.token ∧
    t.cap = s.cap.map (clampTo n) ∧ t.queue = s.queue.map (clampTo n)

theorem step_clamp (n i : Nat) (c : Char) (s t : BState)
    (hi : i < n) (h : QRel n s t) : QRel n (step s i c) (step t i c) := by
  obtain ⟨ls, l, tk, cap, qs⟩ := s
  obtain ⟨ls', l', tk', cap', qs'⟩ := t
  obtain ⟨h1, h2, h3, h4, h5⟩ := h
  simp only at h1 h2 h3 h4 h5
  subst h1; subst h2; subst h3; subst h5
  cases cap with
  | none =>
    simp only [Option.map_none'] at h4
    subst h4
    simp only [step]
    split_ifs <;> exact ⟨rfl, rfl, rfl, rfl, rfl⟩
  | some a =>
    simp only [Option.map_some'] at h4
    subst h4
    have hstart : (i = (clampTo n a).start) = (i = a.start) := by
      simp only [clampTo]
      apply propext
      omega
    have hstop : (i = (clampTo n a).stop) = (i = a.stop) := by
      simp only [clampTo]
      apply propext
      omega
    simp only [step, hstart, hstop]
    split_ifs <;>
      exact ⟨rfl, rfl, rfl, by simp [List.head?_map], by simp [List.map_tail]⟩

theorem scan_clamp (n : Nat) (l : List Char) :
    ∀ (i : Nat) (s t : BState), i + l.length ≤ n → QRel n s t →
      QRel n (scan l i s) (scan l i t) := by
  induction l with
  | nil => intro i s t _ h; exact h
  | cons c cs ih =>
    intro i s t hle h
    simp only [scan]
    apply ih
    · simp at hle; omega
    · exact step_clamp n i c s t (by simp at hle; omega) h

/-- C6: the builder never reads the text through annotation endpoints (the
embedding is a total function of the characters and the queue, comparing
the scan index against endpoints only), and clamping every annotation's
endpoints to the text length leaves the output unchanged.  In particular an
annotation whose endpoints exceed the text length behaves exactly like the
same annotation with those endpoints replaced by the text length. -/
theorem claim_C6 (T : List Char) (q : List Capture) :
    build_styled_content T q =
      build_styled_content T (q.map (clampTo T.length)) := by
  have hinit : QRel T.length (initState q) (initState (q.map (clampTo T.length))) := by
    refine ⟨rfl, rfl, rfl, ?_, ?_⟩
    · simp [initState, List.head?_map]
    · simp [initState, List.map_tail]
  have hs := scan_clamp T.length T 0 (initState q)
    (initState (q.map (clampTo T.length))) (by omega) hinit
  obtain ⟨e1, e2, e3, _, _⟩ := hs
  unfold build_styled_content finish
  rw [e1, e2, e3]

/-! ## Unannotated runs have at most one character (C9) -/

/-- With no capture active and none pending, the token never exceeds one
character and every run flushed so far has at most one character. -/
def shortState (s : BState) : Prop :=
  s.cap = none ∧ s.token.length ≤ 1 ∧
    (∀ ℓ ∈ s.lines, ∀ r ∈ ℓ, r.content.length ≤ 1) ∧
    (∀ r ∈ s.line, r.content.length ≤ 1)

theorem step_short (s : BState) (i : Nat) (c : Char) (h : shortState s) :
    shortState (step s i c) := by
  obtain ⟨ls, l, tk, cap, qs⟩ := s
  obtain ⟨hcap, htk, hls, hl⟩ := h
  simp only at hcap htk hls hl
  subst hcap
  simp only [step]
  split_ifs with h1 h2
  · refine ⟨rfl, by simp, hls, ?_⟩
    intro r hr
    rcases List.mem_append.mp hr with hr | hr
    · exact hl r hr
    · simp only [List.mem_singleton] at hr
      subst hr
      exact htk
  · refine ⟨rfl, by simp, ?_, by simp⟩
    intro ℓ hℓ
    rcases List.mem_append.mp hℓ with hℓ | hℓ
    · exact hls ℓ hℓ
    · simp only [List.mem_singleton] at hℓ
      subst hℓ
      intro r hr
      rcases List.mem_append.mp hr with hr | hr
      · exact hl r hr
      · simp only [List.mem_singleton] at hr
        subst hr
        exact htk
  · have htk0 : tk = [] := by
      by_contra hne
      exact h1 ⟨hne, h2⟩
    subst htk0
    exact ⟨rfl, by simp, hls, hl⟩

theorem scan_short (l : List Char) :
    ∀ (i : Nat) (s : BState), shortState s → shortState (scan l i s) := by
  induction l with
  | nil => intro i s h; exact h
  | cons c cs ih =>
    intro i s h
    exact ih (i + 1) (step s i c) (step_short s i c h)

/-- C9: with an empty annotation queue, every Run in every Line of the
output has a text of at most one character — consecutive unannotated
characters are never merged into one Run. -/
theorem claim_C9 (T : List Char) :
    ∀ ℓ ∈ build_styled_content T [], ∀ r ∈ ℓ, r.content.length ≤ 1 := by
  have h := scan_short T 0 (initState [])
    ⟨rfl, by decide, by simp [initState], by simp [initState]⟩
  obtain ⟨-, htk, hls, hl⟩ := h
  intro ℓ hℓ r hr
  unfold build_styled_content finish at hℓ
  rcases List.mem_append.mp hℓ with hℓ | hℓ
  · exact hls ℓ hℓ r hr
  · simp only [List.mem_singleton] at hℓ
    subst hℓ
    rcases List.mem_append.mp hr with hr | hr
    · exact hl r hr
    · simp only [List.mem_singleton] at hr
      subst hr
      exact htk

/-- C9 witness: the claim applied to the concrete text `"xy"`, whose output
is one Line of the two one-character Runs `("x", white)`, `("y", plain)`. -/
theorem claim_C9_witness :
    [⟨['x'], Style.fgWhite⟩, ⟨['y'], Style.plain⟩] ∈
        build_styled_content ['x', 'y'] [] ∧
      (⟨['x'], Style.fgWhite⟩ : Span).content.length ≤ 1 :=
  ⟨by decide,
    claim_C9 ['x', 'y'] [⟨['x'], Style.fgWhite⟩, ⟨['y'], Style.plain⟩]
      (by decide) ⟨['x'], Style.fgWhite⟩ (by decide)⟩

/-! ## Queue popping (C8, C10) -/

/-- The scan never changes the capture state except by popping the active
capture exactly when the index equals its end. -/
theorem step_pop_only_at_stop (s : BState) (i : Nat) (c : Char) :
    ((step s i c).cap = s.cap ∧ (step s i c).queue = s.queue) ∨
      (∃ a, s.cap = some a ∧ i = a.stop ∧
        (step s i c).cap = s.queue.head? ∧
        (step s i c).queue = s.queue.tail) := by
  obtain ⟨ls, l, tk, cap, qs⟩ := s
  cases cap with
  | none =>
    simp only [step]
    split_ifs <;> exact Or.inl ⟨rfl, rfl⟩
  | some a =>
    simp only [step]
    split_ifs with h1 h2 h3 h4 h5
    · exact Or.inl ⟨rfl, rfl⟩
    · exact Or.inl ⟨rfl, rfl⟩
    · exact Or.inr ⟨a, rfl, h3.1, rfl, rfl⟩
    · exact Or.inr ⟨a, rfl, h4, rfl, rfl⟩
    · exact Or.inl ⟨rfl, rfl⟩
    · exact Or.inl ⟨rfl, rfl⟩

/-- A step before the active capture's end changes neither the capture nor
the queue, and its effect on the other fields does not depend on the
queue. -/
theorem step_queue_congr (ls : List Line) (l : Line) (tk : List Char)
    (qs qs' : List Capture) (a : Capture) (i : Nat) (c : Char)
    (hi : i ≠ a.stop) :
    ∃ ls2 l2 tk2,
      step ⟨ls, l, tk, some a, qs⟩ i c = ⟨ls2, l2, tk2, some a, qs⟩ ∧
      step ⟨ls, l, tk, some a, qs'⟩ i c = ⟨ls2, l2, tk2, some a, qs'⟩ := by
  simp only [step]
  have h3 : ¬(i = a.stop ∧ is_endline c = true) := fun h => hi h.1
  rw [if_neg h3, if_neg hi]
  split_ifs with h1 h2 h5 <;> exact ⟨_, _, _, rfl, rfl⟩

/-- While the scan stays strictly before the active capture's end, the
capture stays active, the queue is untouched, and the produced lines do not
depend on the queue at all. -/
theorem scan_queue_congr (l : List Char) :
    ∀ (i : Nat) (ls : List Line) (ln : Line) (tk : List Char)
      (qs qs' : List Capture) (a : Capture), i + l.length ≤ a.stop →
      ∃ ls2 l2 tk2,
        scan l i ⟨ls, ln, tk, some a, qs⟩ = ⟨ls2, l2, tk2, some a, qs⟩ ∧
        scan l i ⟨ls, ln, tk, some a, qs'⟩ = ⟨ls2, l2, tk2, some a, qs'⟩ := by
  induction l with
  | nil => intro i ls ln tk qs qs' a _; exact ⟨ls, ln, tk, rfl, rfl⟩
  | cons c cs ih =>
    intro i ls ln tk qs qs' a hle
    have hi : i ≠ a.stop := by simp at hle; omega
    obtain ⟨ls2, l2, tk2, hstep, hstep'⟩ :=
      step_queue_congr ls ln tk qs qs' a i c hi
    obtain ⟨ls3, l3, tk3, hs, hs'⟩ :=
      ih (i + 1) ls2 l2 tk2 qs qs' a (by simp at hle; omega)
    refine ⟨ls3, l3, tk3, ?_, ?_⟩
    · show scan cs (i + 1) (step ⟨ls, ln, tk, some a, qs⟩ i c) = _
      rw [hstep, hs]
    · show scan cs (i + 1) (step ⟨ls, ln, tk, some a, qs'⟩ i c) = _
      rw [hstep', hs']

/-- C10: a capture is removed from the queue only while processing a
character whose index equals its end; consequently an active capture whose
end is at least the text length is still active after the whole scan, and
the queue entries behind it never influence the output. -/
theorem claim_C10 :
    (∀ (s : BState) (i : Nat) (c : Char),
      ((step s i c).cap = s.cap ∧ (step s i c).queue = s.queue) ∨
        (∃ a, s.cap = some a ∧ i = a.stop ∧
          (step s i c).cap = s.queue.head? ∧
          (step s i c).queue = s.queue.tail)) ∧
    ∀ (T : List Char) (a : Capture) (rest : List Capture),
      T.length ≤ a.stop →
        (scan T 0 (initState (a :: rest))).cap = some a ∧
        build_styled_content T (a :: rest) = build_styled_content T [a] := by
  refine ⟨step_pop_only_at_stop, ?_⟩
  intro T a rest hlen
  obtain ⟨ls2, l2, tk2, hs, hs'⟩ :=
    scan_queue_congr T 0 [] [] [] rest [] a (by omega)
  have h1 : scan T 0 (initState (a :: rest)) = ⟨ls2, l2, tk2, some a, rest⟩ := hs
  have h2 : scan T 0 (initState [a]) = ⟨ls2, l2, tk2, some a, []⟩ := hs'
  refine ⟨by rw [h1], ?_⟩
  unfold build_styled_content
  rw [h1, h2]
  rfl

/-- C10 witness: the claim instantiated for text `"x"` and the active
capture `{start 0, end 5}` whose end exceeds the length 1, with one more
capture waiting behind it. -/
theorem claim_C10_witness :
    (scan ['x'] 0
        (initState [⟨0, 5, Style.custom 1⟩, ⟨9, 10, Style.custom 2⟩])).cap =
      some ⟨0, 5, Style.custom 1⟩ ∧
    build_styled_content ['x'] [⟨0, 5, Style.custom 1⟩, ⟨9, 10, Style.custom 2⟩] =
      build_styled_content ['x'] [⟨0, 5, Style.custom 1⟩] :=
  claim_C10.2 ['x'] ⟨0, 5, Style.custom 1⟩ [⟨9, 10, Style.custom 2⟩] (by decide)

/-- C8: when the active capture `a` ends at the current index `i` — also
when the next capture `b` starts right there — and the character is not a
line break, the step flushes the buffered token as a Run styled with
`a.style`, pops `a` (making `b` active), and buffers the character as the
start of the next token; `b`'s own start check does not fire in this
iteration (no white-styled flush against `b` happens).  In the concrete
trace `"abcde"` with adjacent captures `{0,2}` and `{2,4}`, the character
at index 2 indeed ends up in `b`'s styled Run `("cd", S2)` flushed at
`b`'s end. -/
theorem claim_C8 :
    (∀ (s : BState) (i : Nat) (c : Char) (a b : Capture)
        (rest : List Capture),
      s.cap = some a → s.queue = b :: rest → i = a.stop → i = b.start →
      i ≠ a.start → ¬ is_endline c →
      step s i c =
        ⟨s.lines, s.line ++ [⟨s.token, a.style⟩], [c], some b, rest⟩) ∧
    build_styled_content ['a', 'b', 'c', 'd', 'e']
        [⟨0, 2, Style.custom 1⟩, ⟨2, 4, Style.custom 2⟩] =
      [[⟨['a', 'b'], Style.custom 1⟩, ⟨['c', 'd'], Style.custom 2⟩,
        ⟨['e'], Style.plain⟩]] := by
  constructor
  · intro s i c a b rest hcap hq hstop hbstart hnstart hnl
    obtain ⟨ls, l, tk, cap, qs⟩ := s
    simp only at hcap hq
    subst hcap
    subst hq
    simp only [step]
    rw [if_neg (fun h => hnstart h.1), if_neg hnstart,
      if_neg (fun h => hnl h.2), if_pos hstop]
    rfl
  · decide

/-- C8 witness: the step part of the claim applied at a concrete state with
adjacent captures `{0,1}` and `{1,2}` at index 1. -/
theorem claim_C8_witness :
    step ⟨[], [], ['x'], some ⟨0, 1, Style.custom 1⟩,
        [⟨1, 2, Style.custom 2⟩]⟩ 1 'y' =
      ⟨[], [⟨['x'], Style.custom 1⟩], ['y'], some ⟨1, 2, Style.custom 2⟩,
        []⟩ :=
  claim_C8.1 _ 1 'y' ⟨0, 1, Style.custom 1⟩ ⟨1, 2, Style.custom 2⟩ []
    rfl rfl rfl rfl (by decide) (by decide)

/-! ## No run contains a line break (C4)

A line break can only enter the token through the capture-start branches
(source lines 28-37), when an annotation's start index falls exactly on a
break character.  If no capture of the queue starts on a break index of the
text, every run stays break-free.
-/

/-- All runs flushed so far and the token are free of line breaks. -/
def noBreakState (s : BState) : Prop :=
  (∀ ℓ ∈ s.lines, ∀ r ∈ ℓ, '\n' ∉ r.content) ∧
    (∀ r ∈ s.line, '\n' ∉ r.content) ∧ '\n' ∉ s.token

theorem step_noBreak (s : BState) (i : Nat) (c : Char)
    (h : noBreakState s)
    (hc : c = '\n' → ∀ a, s.cap = some a → i ≠ a.start) :
    noBreakState (step s i c) := by
  obtain ⟨ls, l, tk, cap, qs⟩ := s
  obtain ⟨hls, hl, htk⟩ := h
  simp only at hls hl htk hc
  have hline : ∀ sty, ∀ r ∈ l ++ [(⟨tk, sty⟩ : Span)], '\n' ∉ r.content := by
    intro sty r hr
    rcases List.mem_append.mp hr with hr | hr
    · exact hl r hr
    · simp only [List.mem_singleton] at hr
      subst hr
      exact htk
  have hlines : ∀ sty, ∀ ℓ ∈ ls ++ [l ++ [(⟨tk, sty⟩ : Span)]],
      ∀ r ∈ ℓ, '\n' ∉ r.content := by
    intro sty ℓ hℓ
    rcases List.mem_append.mp hℓ with hℓ | hℓ
    · exact hls ℓ hℓ
    · simp only [List.mem_singleton] at hℓ
      subst hℓ
      exact hline sty
  cases cap with
  | some a =>
    have hcs : c = '\n' → i ≠ a.start := fun he => hc he a rfl
    simp only [step]
    split_ifs with h1 h2 h3 h4 h5
    · refine ⟨hls, hl, ?_⟩
      intro hmem
      simp only [List.mem_singleton] at hmem
      exact hcs hmem.symm h1.1
    · refine ⟨hls, hline Style.fgWhite, ?_⟩
      intro hmem
      simp only [List.mem_singleton] at hmem
      exact hcs hmem.symm h2
    · exact ⟨hlines a.style, by simp, by simp⟩
    · refine ⟨hls, hline a.style, ?_⟩
      intro hmem
      simp only [List.mem_singleton] at hmem
      have : is_endline c = true := by simp [is_endline, hmem.symm]
      exact h3 ⟨h4, this⟩
    · exact ⟨hlines a.style, by simp, by simp⟩
    · refine ⟨hls, hl, ?_⟩
      intro hmem
      rcases List.mem_append.mp hmem with hmem | hmem
      · exact htk hmem
      · simp only [List.mem_singleton] at hmem
        exact h5 (by simp [is_endline, hmem.symm])
  | none =>
    simp only [step]
    split_ifs with h1 h2
    · refine ⟨hls, hline Style.fgWhite, ?_⟩
      intro hmem
      simp only [List.mem_singleton] at hmem
      exact h1.2 (by simp [is_endline, hmem.symm])
    · exact ⟨hlines Style.fgWhite, by simp, by simp⟩
    · refine ⟨hls, hl, ?_⟩
      intro hmem
      rcases List.mem_append.mp hmem with hmem | hmem
      · exact htk hmem
      · simp only [List.mem_singleton] at hmem
        exact h2 (by simp [is_endline, hmem.symm])

theorem scan_noBreak (T : List Char) (q : List Capture)
    (hq : ∀ a ∈ q, ∀ j, T.get? j = some '\n' → a.start ≠ j) (l : List Char) :
    ∀ (i : Nat) (s : BState),
      (∀ m c', l.get? m = some c' → T.get? (i + m) = some c') →
      (∀ a ∈ capSet s, a ∈ q) → noBreakState s →
      noBreakState (scan l i s) := by
  induction l with
  | nil => intro i s _ _ h; exact h
  | cons c cs ih =>
    intro i s halign hcaps h
    apply ih (i + 1) (step s i c)
    · intro m c' hm
      have h2 := halign (m + 1) c' (by simpa using hm)
      have heq : i + (m + 1) = i + 1 + m := by omega
      rw [heq] at h2
      exact h2
    · intro a ha
      exact hcaps a (capSet_step s i c a ha)
    · apply step_noBreak s i c h
      intro he a hcap
      have hmem : a ∈ q := hcaps a (by simp [capSet, hcap])
      have hTi : T.get? i = some '\n' := by
        have := halign 0 c (by simp)
        simpa [he] using this
      exact fun h' => hq a hmem i hTi h'.symm

/-- C4 (amended): if no annotation of the queue starts at an index holding
a line-break character of the text — as forced by the counterexample — then
no Run of the output ever contains a line break. -/
theorem claim_C4_amended (T : List Char) (q : List Capture)
    (hq : ∀ a ∈ q, ∀ j, T.get? j = some '\n' → a.start ≠ j) :
    ∀ ℓ ∈ build_styled_content T q, ∀ r ∈ ℓ, '\n' ∉ r.content := by
  have h := scan_noBreak T q hq T 0 (initState q)
    (by intro m c' hm; simpa using hm)
    (by rw [capSet_initState]; exact fun a ha => ha)
    ⟨by simp [initState], by simp [initState], by simp [initState]⟩
  obtain ⟨hls, hl, htk⟩ := h
  intro ℓ hℓ r hr
  unfold build_styled_content finish at hℓ
  rcases List.mem_append.mp hℓ with hℓ | hℓ
  · exact hls ℓ hℓ r hr
  · simp only [List.mem_singleton] at hℓ
    subst hℓ
    rcases List.mem_append.mp hr with hr | hr
    · exact hl r hr
    · simp only [List.mem_singleton] at hr
      subst hr
      exact htk

/-- C4 witness: the amended claim at text `"a\n"` with the annotation
`{start 0, end 1}` (which does not start on the break at index 1). -/
theorem claim_C4_witness :
    '\n' ∉ (⟨['a'], Style.custom 1⟩ : Span).content ∧
      '\n' ∉ (⟨[], Style.plain⟩ : Span).content := by
  have h := claim_C4_amended ['a', '\n'] [⟨0, 1, Style.custom 1⟩] ?_
  · refine ⟨h [⟨['a'], Style.custom 1⟩] (by decide) _ (by decide),
      h [⟨[], Style.plain⟩] (by decide) _ (by decide)⟩
  · intro a ha j hj
    match j with
    | 0 => simp at hj
    | 1 =>
      simp only [List.mem_singleton] at ha
      subst ha
      decide
    | n + 2 => simp [List.get?] at hj

/-- C4 counterexample: with the annotation `{start 1, end 3}` on text
`"a\nb"` — the start falls on the line break — the break is buffered into
a Run: the claim fails as stated. -/
theorem claim_C4_counterexample :
    build_styled_content ['a', '\n', 'b'] [⟨1, 3, Style.custom 1⟩] =
        [[⟨['a'], Style.fgWhite⟩, ⟨['\n', 'b'], Style.plain⟩]] ∧
      '\n' ∈ (⟨['\n', 'b'], Style.plain⟩ : Span).content := by
  decide

/-! ## Style fidelity (C3)

We track, for every position of the rendered output, the pair of its
character and the style of the run holding it (`none` for the consumed
line-break separators), and show each such pair is justified: separators
are line breaks, covered characters carry the covering capture's style,
and uncovered non-break characters carry one of the two default styles.
-/

/-- The characters of completed lines, with their separators. -/
def linesChars (ls : List Line) : List (Char × Option Style) :=
  (ls.map (fun l => lineChars l ++ [('\n', none)])).flatten

/-- The output positions already fixed by the scan: the completed lines
(with separators) and the line under construction. -/
def committed (s : BState) : List (Char × Option Style) :=
  linesChars s.lines ++ lineChars s.line

/-- A rendered position `j` with pair `p` is justified: the character is
the text's character at `j`, and the style is either the separator (a
consumed line break), the style of a capture covering `j`, or one of the
two default styles at an uncovered non-break position. -/
def styleOK (T : List Char) (q : List Capture) (j : Nat)
    (p : Char × Option Style) : Prop :=
  T.get? j = some p.1 ∧
    ((p.2 = none ∧ p.1 = '\n') ∨
      (∃ a ∈ q, a.start ≤ j ∧ j < a.stop ∧ p.2 = some a.style) ∨
      (¬ covered q j ∧ p.1 ≠ '\n' ∧
        (p.2 = some Style.fgWhite ∨ p.2 = some Style.plain)))

/-- All positions of a chunk placed at offset `base` are justified. -/
def ChunkOK (T : List Char) (q : List Capture) (base : Nat)
    (xs : List (Char × Option Style)) : Prop :=
  ∀ m p, xs.get? m = some p → styleOK T q (base + m) p

/-- The state's capture discipline: with no active capture the token is
break-free; with an active capture either the capture is still pending
(the index has not passed its start, and the token buffers break-free
unannotated text) or the capture is in progress (the token zone starts at
or after its start and the index has not passed its end). -/
def capOK (T : List Char) (q : List Capture) (i : Nat) (s : BState) : Prop :=
  match s.cap with
  | none => ∀ c ∈ s.token, c ≠ '\n'
  | some a =>
      (i ≤ a.start ∧ ∀ c ∈ s.token, c ≠ '\n') ∨
      (a.start ≤ (committed s).length ∧ i ≤ a.stop)

/-- The scan invariant for style fidelity. -/
structure ScanInv (T : List Char) (q : List Capture) (i : Nat) (s : BState) :
    Prop where
  len_eq : (committed s).length + s.token.length = i
  comm_ok : ChunkOK T q 0 (committed s)
  tok_align : ∀ m c', s.token.get? m = some c' →
    T.get? ((committed s).length + m) = some c'
  struct : ∃ k, k ≤ q.length ∧ s.cap = (q.drop k).head? ∧
    s.queue = (q.drop k).tail ∧
    (∀ a ∈ q.take k, a.stop ≤ (committed s).length) ∧ capOK T q i s

theorem lineChars_append (l : Line) (r : Span) :
    lineChars (l ++ [r]) = lineChars l ++ spanChars r := by
  simp [lineChars]

theorem linesChars_append (ls : List Line) (l : Line) :
    linesChars (ls ++ [l]) =
      linesChars ls ++ (lineChars l ++ [('\n', none)]) := by
  simp [linesChars]

theorem chunkOK_append {T : List Char} {q : List Capture} {base : Nat}
    {xs ys : List (Char × Option Style)} (hx : ChunkOK T q base xs)
    (hy : ChunkOK T q (base + xs.length) ys) :
    ChunkOK T q base (xs ++ ys) := by
  intro m p hm
  rcases Nat.lt_or_ge m xs.length with h | h
  · exact hx m p (by rwa [List.get?_append h] at hm)
  · have := hy (m - xs.length) p (by rwa [List.get?_append_right h] at hm)
    have heq : base + xs.length + (m - xs.length) = base + m := by omega
    rwa [heq] at this

theorem spanChars_get? (r : Span) (m : Nat) :
    (spanChars r).get? m =
      (r.content.get? m).map (fun c => (c, some r.style)) := by
  simp [spanChars, List.get?_map]

theorem flushCovered {T : List Char} {q : List Capture} {base : Nat}
    {tk : List Char} {a : Capture} (ha : a ∈ q)
    (halign : ∀ m c', tk.get? m = some c' → T.get? (base + m) = some c')
    (hrange : ∀ m, m < tk.length → a.start ≤ base + m ∧ base + m < a.stop) :
    ChunkOK T q base (spanChars ⟨tk, a.style⟩) := by
  intro m p hm
  rw [spanChars_get?] at hm
  cases hc : tk.get? m with
  | none => rw [hc] at hm; simp at hm
  | some c' =>
    rw [hc] at hm
    simp only [Option.map_some'] at hm
    have hp : p = (c', some a.style) := by
      have := Option.some_injective _ hm
      simpa using this.symm
    subst hp
    have hmlt : m < tk.length := by
      by_contra h
      rw [List.get?_eq_none.mpr (by omega)] at hc
      simp at hc
    exact ⟨halign m c' hc,
      Or.inr (Or.inl ⟨a, ha, (hrange m hmlt).1, (hrange m hmlt).2, rfl⟩)⟩

theorem flushDefault {T : List Char} {q : List Capture} {base : Nat}
    {tk : List Char} {sty : Style}
    (hsty : sty = Style.fgWhite ∨ sty = Style.plain)
    (halign : ∀ m c', tk.get? m = some c' → T.get? (base + m) = some c')
    (hunc : ∀ m, m < tk.length → ¬ covered q (base + m))
    (hnb : ∀ c' ∈ tk, c' ≠ '\n') :
    ChunkOK T q base (spanChars ⟨tk, sty⟩) := by
  intro m p hm
  rw [spanChars_get?] at hm
  cases hc : tk.get? m with
  | none => rw [hc] at hm; simp at hm
  | some c' =>
    rw [hc] at hm
    simp only [Option.map_some'] at hm
    have hp : p = (c', some sty) := by
      have := Option.some_injective _ hm
      simpa using this.symm
    subst hp
    have hmlt : m < tk.length := by
      by_contra h
      rw [List.get?_eq_none.mpr (by omega)] at hc
      simp at hc
    refine ⟨halign m c' hc,
      Or.inr (Or.inr ⟨hunc m hmlt, hnb c' (List.get?_mem hc), ?_⟩)⟩
    rcases hsty with rfl | rfl
    · exact Or.inl rfl
    · exact Or.inr rfl

theorem sepOK {T : List Char} {q : List Capture} {base : Nat}
    (hT : T.get? base = some '\n') :
    ChunkOK T q base [('\n', none)] := by
  intro m p hm
  match m, hm with
  | 0, hm =>
    have hp : p = ('\n', none) := by
      have := Option.some_injective _ hm
      exact this.symm
    subst hp
    exact ⟨by simpa using hT, Or.inl ⟨rfl, rfl⟩⟩
  | m + 1, hm => simp at hm

theorem outChars_finish (s : BState) :
    outChars (finish s) =
      committed s ++ spanChars ⟨s.token, Style.plain⟩ := by
  unfold outChars finish committed
  rw [List.map_append, List.map_singleton, intercalate_append_singleton,
    lineChars_append]
  simp [linesChars, List.map_map, Function.comp_def]

theorem covering_unique {q : List Capture}
    (hpair : q.Pairwise (fun a b => a.stop ≤ b.start)) (j : Nat) :
    ∀ a ∈ q, ∀ b ∈ q, a.start ≤ j → j < a.stop → b.start ≤ j → j < b.stop →
      a = b := by
  induction q with
  | nil => intro a ha; simp at ha
  | cons x xs ih =>
    rw [List.pairwise_cons] at hpair
    intro a ha b hb ha1 ha2 hb1 hb2
    rcases List.mem_cons.mp ha with rfl | ha' <;>
      rcases List.mem_cons.mp hb with rfl | hb'
    · rfl
    · have := hpair.1 b hb'; omega
    · have := hpair.1 a ha'; omega
    · exact ih hpair.2 a ha' b hb' ha1 ha2 hb1 hb2

theorem drop_head?_eq_cons {q : List Capture} {k : Nat} {a : Capture}
    (hhead : (q.drop k).head? = some a) :
    ∃ t, q.drop k = a :: t := by
  cases hdk : q.drop k with
  | nil => rw [hdk] at hhead; simp at hhead
  | cons x t =>
    rw [hdk] at hhead
    simp only [List.head?_cons] at hhead
    exact ⟨t, by rw [← Option.some_injective _ hhead]⟩

theorem mem_of_drop_head? {q : List Capture} {k : Nat} {a : Capture}
    (hhead : (q.drop k).head? = some a) : a ∈ q := by
  obtain ⟨t, ht⟩ := drop_head?_eq_cons hhead
  exact List.drop_subset k q (ht ▸ List.mem_cons_self a t)

/-- Positions at or past the token start and strictly before the pending
capture's start are uncovered. -/
theorem zone_uncovered {q : List Capture} {t0 : Nat}
    (hpair : q.Pairwise (fun a b => a.stop ≤ b.start))
    (hlt : ∀ a ∈ q, a.start < a.stop) {k : Nat} {a : Capture}
    (hhead : (q.drop k).head? = some a)
    (htaken : ∀ b ∈ q.take k, b.stop ≤ t0)
    (j : Nat) (hj1 : t0 ≤ j) (hj2 : j < a.start) : ¬ covered q j := by
  rintro ⟨b, hbq, hb1, hb2⟩
  rw [← List.take_append_drop k q] at hbq
  rcases List.mem_append.mp hbq with hb | hb
  · have := htaken b hb; omega
  · obtain ⟨t, ht⟩ := drop_head?_eq_cons hhead
    rw [ht] at hb
    rcases List.mem_cons.mp hb with rfl | hb
    · omega
    · have hpd : (q.drop k).Pairwise (fun x y => x.stop ≤ y.start) :=
        hpair.sublist (List.drop_sublist _ _)
      rw [ht, List.pairwise_cons] at hpd
      have h1 := hpd.1 b hb
      have h2 : a.start < a.stop := hlt a (mem_of_drop_head? hhead)
      omega

/-- Positions at or past every capture's end are uncovered. -/
theorem zone_uncovered_exhausted {q : List Capture} {t0 : Nat}
    (htaken : ∀ b ∈ q, b.stop ≤ t0) (j : Nat) (hj : t0 ≤ j) :
    ¬ covered q j := by
  rintro ⟨b, hbq, _, hb2⟩
  have := htaken b hbq
  omega

theorem take_all_of_drop_head?_none {q : List Capture} {k : Nat}
    (hhead : (q.drop k).head? = none) : q.take k = q := by
  have hdk : q.drop k = [] := by
    cases hdk : q.drop k with
    | nil => rfl
    | cons x t => rw [hdk] at hhead; simp at hhead
  have : q.length ≤ k := by
    have := List.drop_eq_nil_iff_le.mp hdk
    omega
  exact List.take_all_of_le this

theorem spanChars_length (r : Span) : (spanChars r).length = r.content.length := by
  simp [spanChars]

theorem committed_flush_line (ls : List Line) (l : Line) (r : Span)
    (tk : List Char) (cap : Option Capture) (qs : List Capture)
    (tk' : List Char) (cap' : Option Capture) (qs' : List Capture) :
    committed (⟨ls, l ++ [r], tk', cap', qs'⟩ : BState) =
      committed (⟨ls, l, tk, cap, qs⟩ : BState) ++ spanChars r := by
  simp [committed, lineChars_append]

theorem committed_flush_lines (ls : List Line) (l : Line) (r : Span)
    (tk : List Char) (cap : Option Capture) (qs : List Capture)
    (tk' : List Char) (cap' : Option Capture) (qs' : List Capture) :
    committed (⟨ls ++ [l ++ [r]], [], tk', cap', qs'⟩ : BState) =
      committed (⟨ls, l, tk, cap, qs⟩ : BState) ++ spanChars r ++
        [('\n', none)] := by
  simp [committed, linesChars_append, lineChars_append, lineChars, linesChars]

theorem tok_align_singleton {T : List Char} {i : Nat} {c : Char} (b : Nat)
    (hb : b = i) (hT : T.get? i = some c) :
    ∀ m c', ([c] : List Char).get? m = some c' → T.get? (b + m) = some c' := by
  intro m c' hm
  match m, hm with
  | 0, hm =>
    have hc' : c = c' := by simpa using hm
    subst hc'
    subst hb
    simpa using hT
  | m + 1, hm => simp at hm

theorem tok_align_append {T : List Char} {tk : List Char} {c : Char}
    {b i : Nat} (hlen : b + tk.length = i)
    (halign : ∀ m c', tk.get? m = some c' → T.get? (b + m) = some c')
    (hT : T.get? i = some c) :
    ∀ m c', (tk ++ [c]).get? m = some c' → T.get? (b + m) = some c' := by
  intro m c' hm
  rcases Nat.lt_or_ge m tk.length with h | h
  · rw [List.get?_append h] at hm
    exact halign m c' hm
  · rw [List.get?_append_right h] at hm
    cases hd : m - tk.length with
    | zero =>
      rw [hd] at hm
      have hc' : c = c' := by simpa using hm
      have hm' : m = tk.length := by omega
      subst hc'
      rw [hm', hlen]
      exact hT
    | succ mm =>
      rw [hd] at hm
      simp at hm

theorem nobreak_append {tk : List Char} {c : Char}
    (h1 : ∀ c' ∈ tk, c' ≠ '\n') (h2 : c ≠ '\n') :
    ∀ c' ∈ tk ++ [c], c' ≠ '\n' := by
  intro c' hc'
  rcases List.mem_append.mp hc' with h | h
  · exact h1 c' h
  · simp only [List.mem_singleton] at h
    subst h
    exact h2

theorem pop_next_facts {q : List Capture} {k : Nat} {a : Capture}
    (hpair : q.Pairwise (fun x y => x.stop ≤ y.start))
    (hhead : (q.drop k).head? = some a) :
    k + 1 ≤ q.length ∧ (q.drop k).tail = q.drop (k + 1) ∧
      q.take (k + 1) = q.take k ++ [a] ∧
      (∀ b, (q.drop (k + 1)).head? = some b → a.stop ≤ b.start ∧ b ∈ q) := by
  obtain ⟨t, ht⟩ := drop_head?_eq_cons hhead
  have hdrop1 : q.drop (k + 1) = t := by
    rw [← List.tail_drop, ht]
    rfl
  refine ⟨?_, List.tail_drop q k, ?_, ?_⟩
  · have hlen := List.length_drop k q
    rw [ht] at hlen
    simp only [List.length_cons] at hlen
    omega
  · rw [List.take_succ]
    have hk : q[k]? = some a := by rw [← List.head?_drop]; exact hhead
    rw [hk]
    rfl
  · intro b hb
    rw [hdrop1] at hb
    have hbt : b ∈ t := by
      cases t with
      | nil => simp at hb
      | cons x t' =>
        simp only [List.head?_cons] at hb
        rw [← Option.some_injective _ hb]
        exact List.mem_cons_self x t'
    have hpd : (q.drop k).Pairwise (fun x y => x.stop ≤ y.start) :=
      hpair.sublist (List.drop_sublist _ _)
    rw [ht, List.pairwise_cons] at hpd
    exact ⟨hpd.1 b hbt,
      List.drop_subset k q (ht ▸ List.mem_cons_of_mem a hbt)⟩

theorem length_flush (X : List (Char × Option Style)) (tk : List Char)
    (sty : Style) : (X ++ spanChars ⟨tk, sty⟩).length = X.length + tk.length := by
  simp [spanChars]

theorem length_flush_sep (X : List (Char × Option Style)) (tk : List Char)
    (sty : Style) : (X ++ spanChars ⟨tk, sty⟩ ++ [('\n', none)]).length =
      X.length + tk.length + 1 := by
  simp [spanChars]
  omega

set_option maxHeartbeats 1600000 in
/-- One scan step preserves the style-fidelity invariant, under the
well-formedness hypotheses on the queue. -/
theorem scanInv_step {T : List Char} {q : List Capture}
    (hpair : q.Pairwise (fun a b => a.stop ≤ b.start))
    (hlt : ∀ a ∈ q, a.start < a.stop)
    (hnl : ∀ j, T.get? j = some '\n' → ¬ covered q j → ∀ a ∈ q, a.start ≤ j)
    (i : Nat) (c : Char) (s : BState)
    (hT : T.get? i = some c) (hinv : ScanInv T q i s) :
    ScanInv T q (i + 1) (step s i c) := by
  obtain ⟨ls, l, tk, cap, qs⟩ := s
  obtain ⟨hlen, hcomm, halign, k, hk, hcap, hque, htaken, hcapok⟩ := hinv
  have hC : ∀ (tk' : List Char) (cap' : Option Capture)
      (qs' : List Capture), committed (⟨ls, l, tk', cap', qs'⟩ : BState) =
        linesChars ls ++ lineChars l := fun _ _ _ => rfl
  rw [hC] at hcomm htaken
  replace hlen : (linesChars ls ++ lineChars l).length + tk.length = i := hlen
  replace halign : ∀ m c', tk.get? m = some c' →
      T.get? ((linesChars ls ++ lineChars l).length + m) = some c' := halign
  replace hcap : cap = (q.drop k).head? := hcap
  replace hque : qs = (q.drop k).tail := hque
  cases cap with
  | some a =>
    have hhead : (q.drop k).head? = some a := hcap.symm
    have haq : a ∈ q := mem_of_drop_head? hhead
    have halt : a.start < a.stop := hlt a haq
    simp only [capOK, hC] at hcapok
    replace hcapok : (i ≤ a.start ∧ ∀ c' ∈ tk, c' ≠ '\n') ∨
        (a.start ≤ (linesChars ls ++ lineChars l).length ∧ i ≤ a.stop) :=
      hcapok
    simp only [step]
    split_ifs with h1 h2 h3 h4 h5
    · -- rule 1: i = start, token empty
      obtain ⟨hstart, htk0⟩ := h1
      subst htk0
      simp only [List.length_nil, Nat.add_zero] at hlen
      refine ⟨?_, ?_, ?_, k, hk, hcap, hque, ?_, ?_⟩
      · rw [hC]
        simp only [List.length_cons, List.length_nil]
        omega
      · rw [hC]; exact hcomm
      · rw [hC]
        exact tok_align_singleton _ hlen hT
      · rw [hC]; exact htaken
      · simp only [capOK, hC]
        exact Or.inr ⟨by omega, by omega⟩
    · -- rule 2: i = start, token non-empty: flush default run
      have htkne : tk ≠ [] := fun h => h1 ⟨h2, h⟩
      have htklen : 0 < tk.length := List.length_pos.mpr htkne
      have hpend : i ≤ a.start ∧ ∀ c' ∈ tk, c' ≠ '\n' := by
        rcases hcapok with h | h
        · exact h
        · omega
      have hflush : ChunkOK T q (linesChars ls ++ lineChars l).length
          (spanChars ⟨tk, Style.fgWhite⟩) := by
        refine flushDefault (Or.inl rfl) halign ?_ hpend.2
        intro m hm
        exact zone_uncovered hpair hlt hhead htaken _ (by omega) (by omega)
      refine ⟨?_, ?_, ?_, k, hk, hcap, hque, ?_, ?_⟩
      · rw [committed_flush_line ls l _ tk (some a) qs, hC, length_flush]
        simp only [List.length_cons, List.length_nil]
        omega
      · rw [committed_flush_line ls l _ tk (some a) qs, hC]
        refine chunkOK_append hcomm ?_
        rw [Nat.zero_add]
        exact hflush
      · rw [committed_flush_line ls l _ tk (some a) qs, hC]
        refine tok_align_singleton _ ?_ hT
        rw [length_flush]
        omega
      · rw [committed_flush_line ls l _ tk (some a) qs, hC, length_flush]
        intro b hb
        have := htaken b hb
        omega
      · simp only [capOK]
        rw [committed_flush_line ls l _ tk (some a) qs, hC, length_flush]
        exact Or.inr ⟨by omega, by omega⟩
    · -- rule 3: i = stop and line break: flush styled run, complete line, pop
      obtain ⟨hstop, hel⟩ := h3
      have hcchar : c = '\n' := is_endline_eq hel
      have hact : a.start ≤ (linesChars ls ++ lineChars l).length ∧
          i ≤ a.stop := by
        rcases hcapok with h | h
        · omega
        · exact h
      obtain ⟨hk1, htl, htake1, hnext⟩ := pop_next_facts hpair hhead
      have hflush : ChunkOK T q (linesChars ls ++ lineChars l).length
          (spanChars ⟨tk, a.style⟩) := by
        refine flushCovered haq halign ?_
        intro m hm
        omega
      have hsep : ChunkOK T q
          ((linesChars ls ++ lineChars l).length + tk.length)
          [('\n', none)] := by
        refine sepOK ?_
        rw [hlen]
        rw [hcchar] at hT
        exact hT
      refine ⟨?_, ?_, ?_, k + 1, hk1, ?_, ?_, ?_, ?_⟩
      · rw [committed_flush_lines ls l _ tk (some a) qs, hC, length_flush_sep]
        simp only [List.length_nil]
        omega
      · rw [committed_flush_lines ls l _ tk (some a) qs, hC]
        refine chunkOK_append (chunkOK_append hcomm ?_) ?_
        · rw [Nat.zero_add]
          exact hflush
        · rw [Nat.zero_add, length_flush]
          exact hsep
      · intro m c' hm
        simp at hm
      · show qs.head? = (q.drop (k + 1)).head?
        rw [hque, htl]
      · show qs.tail = (q.drop (k + 1)).tail
        rw [hque, htl]
      · rw [committed_flush_lines ls l _ tk (some a) qs, hC, length_flush_sep,
          htake1]
        intro b hb
        rcases List.mem_append.mp hb with hb | hb
        · have := htaken b hb
          omega
        · simp only [List.mem_singleton] at hb
          subst hb
          omega
      · cases hq3 : qs.head? with
        | none =>
          simp only [capOK]
          intro c' hc'
          simp at hc'
        | some b =>
          rw [hque, htl] at hq3
          have hb := hnext b hq3
          simp only [capOK]
          rcases Nat.lt_or_ge i b.start with hbs | hbs
          · exact Or.inl ⟨by omega, by intro c' hc'; simp at hc'⟩
          · have hbeq : b.start = i := by omega
            have hblt : b.start < b.stop := hlt b hb.2
            refine Or.inr ⟨?_, by omega⟩
            rw [committed_flush_lines ls l _ tk (some a) qs, hC,
              length_flush_sep]
            omega
    · -- rule 4: i = stop, not a break: flush styled run, pop, buffer c
      have hnel : ¬ is_endline c = true := fun h => h3 ⟨h4, h⟩
      have hcchar : c ≠ '\n' := by
        intro h
        exact hnel (by simp [is_endline, h])
      have hact : a.start ≤ (linesChars ls ++ lineChars l).length ∧
          i ≤ a.stop := by
        rcases hcapok with h | h
        · omega
        · exact h
      obtain ⟨hk1, htl, htake1, hnext⟩ := pop_next_facts hpair hhead
      have hflush : ChunkOK T q (linesChars ls ++ lineChars l).length
          (spanChars ⟨tk, a.style⟩) := by
        refine flushCovered haq halign ?_
        intro m hm
        omega
      refine ⟨?_, ?_, ?_, k + 1, hk1, ?_, ?_, ?_, ?_⟩
      · rw [committed_flush_line ls l _ tk (some a) qs, hC, length_flush]
        simp only [List.length_cons, List.length_nil]
        omega
      · rw [committed_flush_line ls l _ tk (some a) qs, hC]
        refine chunkOK_append hcomm ?_
        rw [Nat.zero_add]
        exact hflush
      · rw [committed_flush_line ls l _ tk (some a) qs, hC]
        refine tok_align_singleton _ ?_ hT
        rw [length_flush]
        omega
      · show qs.head? = (q.drop (k + 1)).head?
        rw [hque, htl]
      · show qs.tail = (q.drop (k + 1)).tail
        rw [hque, htl]
      · rw [committed_flush_line ls l _ tk (some a) qs, hC, length_flush,
          htake1]
        intro b hb
        rcases List.mem_append.mp hb with hb | hb
        · have := htaken b hb
          omega
        · simp only [List.mem_singleton] at hb
          subst hb
          omega
      · cases hq3 : qs.head? with
        | none =>
          simp only [capOK]
          intro c' hc'
          simp only [List.mem_singleton] at hc'
          subst hc'
          exact hcchar
        | some b =>
          rw [hque, htl] at hq3
          have hb := hnext b hq3
          simp only [capOK]
          rcases Nat.lt_or_ge i b.start with hbs | hbs
          · refine Or.inl ⟨by omega, ?_⟩
            intro c' hc'
            simp only [List.mem_singleton] at hc'
            subst hc'
            exact hcchar
          · have hbeq : b.start = i := by omega
            have hblt : b.start < b.stop := hlt b hb.2
            refine Or.inr ⟨?_, by omega⟩
            rw [committed_flush_line ls l _ tk (some a) qs, hC, length_flush]
            omega
    · -- rule 5: line break inside the capture: flush styled run, keep it
      have hcchar : c = '\n' := is_endline_eq h5
      have hact : a.start ≤ (linesChars ls ++ lineChars l).length ∧
          i ≤ a.stop := by
        rcases hcapok with h | h
        · exfalso
          have hia : i < a.start := by
            rcases Nat.lt_or_ge i a.start with h' | h'
            · exact h'
            · exact absurd (by omega : i = a.start) h2
          have hunc : ¬ covered q i :=
            zone_uncovered hpair hlt hhead htaken i (by omega) hia
          have := hnl i (by rw [← hcchar]; exact hT) hunc a haq
          omega
        · exact h
      have hilt : i < a.stop := by
        rcases Nat.lt_or_ge i a.stop with h' | h'
        · exact h'
        · exact absurd (by omega : i = a.stop) h4
      have hflush : ChunkOK T q (linesChars ls ++ lineChars l).length
          (spanChars ⟨tk, a.style⟩) := by
        refine flushCovered haq halign ?_
        intro m hm
        omega
      have hsep : ChunkOK T q
          ((linesChars ls ++ lineChars l).length + tk.length)
          [('\n', none)] := by
        refine sepOK ?_
        rw [hlen]
        rw [hcchar] at hT
        exact hT
      refine ⟨?_, ?_, ?_, k, hk, hcap, hque, ?_, ?_⟩
      · rw [committed_flush_lines ls l _ tk (some a) qs, hC, length_flush_sep]
        simp only [List.length_nil]
        omega
      · rw [committed_flush_lines ls l _ tk (some a) qs, hC]
        refine chunkOK_append (chunkOK_append hcomm ?_) ?_
        · rw [Nat.zero_add]
          exact hflush
        · rw [Nat.zero_add, length_flush]
          exact hsep
      · intro m c' hm
        simp at hm
      · rw [committed_flush_lines ls l _ tk (some a) qs, hC, length_flush_sep]
        intro b hb
        have := htaken b hb
        omega
      · simp only [capOK]
        refine Or.inr ⟨?_, by omega⟩
        rw [committed_flush_lines ls l _ tk (some a) qs, hC, length_flush_sep]
        omega
    · -- rule 6: plain character under an active or pending capture
      have hcchar : c ≠ '\n' := by
        intro h
        exact h5 (by simp [is_endline, h])
      have het : (tk ++ [c]).length = tk.length + 1 := by simp
      refine ⟨?_, ?_, ?_, k, hk, hcap, hque, ?_, ?_⟩
      · rw [hC, het]
        omega
      · rw [hC]; exact hcomm
      · rw [hC]
        exact tok_align_append hlen halign hT
      · rw [hC]; exact htaken
      · simp only [capOK, hC]
        rcases hcapok with h | h
        · refine Or.inl ⟨?_, nobreak_append h.2 hcchar⟩
          have : i ≠ a.start := h2
          omega
        · refine Or.inr ⟨h.1, ?_⟩
          have : i ≠ a.stop := h4
          omega
  | none =>
    have hhead : (q.drop k).head? = none := hcap.symm
    have htkall : q.take k = q := take_all_of_drop_head?_none hhead
    have htall : ∀ b ∈ q, b.stop ≤ (linesChars ls ++ lineChars l).length := by
      intro b hb
      exact htaken b (by rw [htkall]; exact hb)
    simp only [capOK] at hcapok
    replace hcapok : ∀ c' ∈ tk, c' ≠ '\n' := hcapok
    simp only [step]
    split_ifs with h1 h2
    · -- rule 7: flush default run, buffer c
      have hflush : ChunkOK T q (linesChars ls ++ lineChars l).length
          (spanChars ⟨tk, Style.fgWhite⟩) := by
        refine flushDefault (Or.inl rfl) halign ?_ hcapok
        intro m hm
        exact zone_uncovered_exhausted htall _ (by omega)
      have hcchar : c ≠ '\n' := by
        intro h
        exact h1.2 (by simp [is_endline, h])
      refine ⟨?_, ?_, ?_, k, hk, hcap, hque, ?_, ?_⟩
      · rw [committed_flush_line ls l _ tk none qs, hC, length_flush]
        simp only [List.length_cons, List.length_nil]
        omega
      · rw [committed_flush_line ls l _ tk none qs, hC]
        refine chunkOK_append hcomm ?_
        rw [Nat.zero_add]
        exact hflush
      · rw [committed_flush_line ls l _ tk none qs, hC]
        refine tok_align_singleton _ ?_ hT
        rw [length_flush]
        omega
      · rw [committed_flush_line ls l _ tk none qs, hC, length_flush]
        intro b hb
        have := htaken b hb
        omega
      · simp only [capOK]
        intro c' hc'
        simp only [List.mem_singleton] at hc'
        subst hc'
        exact hcchar
    · -- rule 8: line break with no capture: flush default run, complete line
      have hcchar : c = '\n' := is_endline_eq h2
      have hflush : ChunkOK T q (linesChars ls ++ lineChars l).length
          (spanChars ⟨tk, Style.fgWhite⟩) := by
        refine flushDefault (Or.inl rfl) halign ?_ hcapok
        intro m hm
        exact zone_uncovered_exhausted htall _ (by omega)
      have hsep : ChunkOK T q
          ((linesChars ls ++ lineChars l).length + tk.length)
          [('\n', none)] := by
        refine sepOK ?_
        rw [hlen]
        rw [hcchar] at hT
        exact hT
      refine ⟨?_, ?_, ?_, k, hk, hcap, hque, ?_, ?_⟩
      · rw [committed_flush_lines ls l _ tk none qs, hC, length_flush_sep]
        simp only [List.length_nil]
        omega
      · rw [committed_flush_lines ls l _ tk none qs, hC]
        refine chunkOK_append (chunkOK_append hcomm ?_) ?_
        · rw [Nat.zero_add]
          exact hflush
        · rw [Nat.zero_add, length_flush]
          exact hsep
      · intro m c' hm
        simp at hm
      · rw [committed_flush_lines ls l _ tk none qs, hC, length_flush_sep]
        intro b hb
        have := htaken b hb
        omega
      · simp only [capOK]
        intro c' hc'
        simp at hc'
    · -- rule 9: plain character with no capture
      have hcchar : c ≠ '\n' := by
        intro h
        exact h2 (by simp [is_endline, h])
      have het : (tk ++ [c]).length = tk.length + 1 := by simp
      refine ⟨?_, ?_, ?_, k, hk, hcap, hque, ?_, ?_⟩
      · rw [hC, het]
        omega
      · rw [hC]; exact hcomm
      · rw [hC]
        exact tok_align_append hlen halign hT
      · rw [hC]; exact htaken
      · simp only [capOK, hC]
        exact nobreak_append hcapok hcchar

theorem scanInv_scan {T : List Char} {q : List Capture}
    (hpair : q.Pairwise (fun a b => a.stop ≤ b.start))
    (hlt : ∀ a ∈ q, a.start < a.stop)
    (hnl : ∀ j, T.get? j = some '\n' → ¬ covered q j → ∀ a ∈ q, a.start ≤ j)
    (l : List Char) :
    ∀ (i : Nat) (s : BState),
      (∀ m c', l.get? m = some c' → T.get? (i + m) = some c') →
      ScanInv T q i s → ScanInv T q (i + l.length) (scan l i s) := by
  induction l with
  | nil =>
    intro i s _ h
    simpa [scan] using h
  | cons c cs ih =>
    intro i s halign h
    have hT : T.get? i = some c := by simpa using halign 0 c (by simp)
    have h1 := scanInv_step hpair hlt hnl i c s hT h
    have h2 := ih (i + 1) (step s i c) (fun m c' hm => by
      have h3 := halign (m + 1) c' (by simpa using hm)
      have heq : i + (m + 1) = i + 1 + m := by omega
      rwa [heq] at h3) h1
    have heq : i + 1 + cs.length = i + (c :: cs).length := by
      simp only [List.length_cons]
      omega
    rwa [heq] at h2

theorem scanInv_init (T : List Char) (q : List Capture) :
    ScanInv T q 0 (initState q) := by
  cases q with
  | nil =>
    refine ⟨rfl, ?_, ?_, 0, by simp, rfl, rfl, by simp, ?_⟩
    · intro m p hm
      simp [committed, linesChars, lineChars, initState] at hm
    · intro m c' hm
      simp [initState] at hm
    · simp only [capOK, initState]
      intro c' hc'
      simp at hc'
  | cons a rest =>
    refine ⟨rfl, ?_, ?_, 0, by simp, rfl, rfl, by simp, ?_⟩
    · intro m p hm
      simp [committed, linesChars, lineChars, initState] at hm
    · intro m c' hm
      simp [initState] at hm
    · simp only [capOK, initState, List.head?_cons]
      refine Or.inl ⟨Nat.zero_le _, ?_⟩
      intro c' hc'
      simp at hc'

/-- Every position of the final output is style-justified, and the output
has exactly one position per input character. -/
theorem build_chunkOK (T : List Char) (q : List Capture)
    (hpair : q.Pairwise (fun a b => a.stop ≤ b.start))
    (hlt : ∀ a ∈ q, a.start < a.stop)
    (hend : ∀ a ∈ q, a.stop < T.length)
    (hnl : ∀ j, T.get? j = some '\n' → ¬ covered q j → ∀ a ∈ q, a.start ≤ j) :
    ChunkOK T q 0 (outChars (build_styled_content T q)) ∧
      (outChars (build_styled_content T q)).length = T.length := by
  have hinv := scanInv_scan hpair hlt hnl T 0 (initState q)
    (fun m c' hm => by simpa using hm) (scanInv_init T q)
  set s' := scan T 0 (initState q) with hs'
  obtain ⟨hlen, hcomm, halign, k, hk, hcap, hque, htaken, hcapok⟩ := hinv
  have hb : build_styled_content T q = finish s' := rfl
  have hcapnone : s'.cap = none ∧ ∀ c' ∈ s'.token, c' ≠ '\n' := by
    simp only [capOK] at hcapok
    split at hcapok
    next heq => exact ⟨heq, hcapok⟩
    next a heq =>
      exfalso
      have hhead : (q.drop k).head? = some a := by rw [← hcap, heq]
      have haq := mem_of_drop_head? hhead
      have h1 := hlt a haq
      have h2 := hend a haq
      rcases hcapok with h | h
      · omega
      · omega
  have htkall : q.take k = q :=
    take_all_of_drop_head?_none (by rw [← hcap]; exact hcapnone.1)
  have htall : ∀ b ∈ q, b.stop ≤ (committed s').length := by
    intro b hbq
    exact htaken b (by rw [htkall]; exact hbq)
  have htrail : ChunkOK T q (committed s').length
      (spanChars ⟨s'.token, Style.plain⟩) := by
    refine flushDefault (Or.inr rfl) halign ?_ hcapnone.2
    intro m hm
    exact zone_uncovered_exhausted htall _ (by omega)
  constructor
  · rw [hb, outChars_finish]
    refine chunkOK_append hcomm ?_
    rw [Nat.zero_add]
    exact htrail
  · rw [hb, outChars_finish, length_flush]
    omega

/-- C3 (amended): assume the queue is sorted and non-overlapping with
`start < end`, every annotation ends strictly inside the text, and every
line break at an uncovered index lies after all annotation starts (the
hypotheses forced by the counterexample).  Then for every index `i` holding
a non-break character: if `i` lies in `[a.start, a.end)` of an annotation
`a`, the rendered character at `i` carries exactly `a.style`; if `i` is
covered by no annotation, it carries one of the two default styles (the
white-foreground in-scan default or the unstyled trailing default). -/
theorem claim_C3_amended (T : List Char) (q : List Capture)
    (hpair : q.Pairwise (fun a b => a.stop ≤ b.start))
    (hlt : ∀ a ∈ q, a.start < a.stop)
    (hend : ∀ a ∈ q, a.stop < T.length)
    (hnl : ∀ j, T.get? j = some '\n' → ¬ covered q j → ∀ a ∈ q, a.start ≤ j) :
    ∀ (i : Nat) (ch : Char), T.get? i = some ch → ch ≠ '\n' →
      (∀ a ∈ q, a.start ≤ i → i < a.stop →
        (outChars (build_styled_content T q)).get? i =
          some (ch, some a.style)) ∧
      (¬ covered q i →
        (outChars (build_styled_content T q)).get? i =
            some (ch, some Style.fgWhite) ∨
          (outChars (build_styled_content T q)).get? i =
            some (ch, some Style.plain)) := by
  obtain ⟨hok, hlen⟩ := build_chunkOK T q hpair hlt hend hnl
  intro i ch hch hne
  have hilt : i < T.length := by
    by_contra h
    rw [List.get?_eq_none.mpr (by omega)] at hch
    simp at hch
  obtain ⟨p, hgp⟩ : ∃ p,
      (outChars (build_styled_content T q)).get? i = some p := by
    cases hgp : (outChars (build_styled_content T q)).get? i with
    | none =>
      rw [List.get?_eq_none] at hgp
      omega
    | some p => exact ⟨p, rfl⟩
  have hsok := hok i p hgp
  rw [Nat.zero_add] at hsok
  obtain ⟨p1, p2⟩ := p
  obtain ⟨hchar, hcases⟩ := hsok
  have hpch : p1 = ch := by
    rw [hch] at hchar
    exact Option.some_injective _ hchar.symm
  subst hpch
  constructor
  · intro a haq ha1 ha2
    rcases hcases with h | h | h
    · exact absurd h.2 hne
    · obtain ⟨b, hbq, hb1, hb2, hb3⟩ := h
      have hab : a = b := covering_unique hpair i a haq b hbq ha1 ha2 hb1 hb2
      rw [hgp]
      simp only at hb3
      rw [hb3, hab]
    · exact absurd ⟨a, haq, ha1, ha2⟩ h.1
  · intro hunc
    rcases hcases with h | h | h
    · exact absurd h.2 hne
    · obtain ⟨b, hbq, hb1, hb2, _⟩ := h
      exact absurd ⟨b, hbq, hb1, hb2⟩ hunc
    · rcases h.2.2 with h2 | h2 <;> simp only at h2
      · left
        rw [hgp, h2]
      · right
        rw [hgp, h2]

/-- C3 witness: the amended claim at the spec's own scenario, text `"abc"`
with annotation `{start 1, end 2, style S1}`: the covered character 'b'
carries S1 and the uncovered character 'a' carries a default style. -/
theorem claim_C3_witness :
    (outChars (build_styled_content ['a', 'b', 'c']
        [⟨1, 2, Style.custom 1⟩])).get? 1 =
      some ('b', some (Style.custom 1)) ∧
    ((outChars (build_styled_content ['a', 'b', 'c']
          [⟨1, 2, Style.custom 1⟩])).get? 0 =
        some ('a', some Style.fgWhite) ∨
      (outChars (build_styled_content ['a', 'b', 'c']
          [⟨1, 2, Style.custom 1⟩])).get? 0 =
        some ('a', some Style.plain)) := by
  have hnl : ∀ j, (['a', 'b', 'c'] : List Char).get? j = some '\n' →
      ¬ covered [⟨1, 2, Style.custom 1⟩] j →
      ∀ a ∈ [(⟨1, 2, Style.custom 1⟩ : Capture)], a.start ≤ j := by
    intro j hj
    match j, hj with
    | 0, hj => exact absurd hj (by decide)
    | 1, hj => exact absurd hj (by decide)
    | 2, hj => exact absurd hj (by decide)
    | n + 3, hj => exact absurd hj (by simp [List.get?])
  have h := claim_C3_amended ['a', 'b', 'c'] [⟨1, 2, Style.custom 1⟩]
    (by simp) (by decide) (by decide) hnl
  exact ⟨(h 1 'b' (by decide) (by decide)).1 ⟨1, 2, Style.custom 1⟩
      (by decide) (by decide) (by decide),
    (h 0 'a' (by decide) (by decide)).2 (by decide)⟩

/-- C3 counterexample: text `"a\nb"` with the single well-formed
annotation `{start 2, end 3}` covering only 'b'.  The uncovered character
'a' is rendered with the capture's style (the line-break branch flushes the
pending token with the capture's style even before its start), and the
covered character 'b' is rendered with the unstyled default (the trailing
flush ignores the active capture) — both directions of the claim fail. -/
theorem claim_C3_counterexample :
    ¬ covered [⟨2, 3, Style.custom 1⟩] 0 ∧
      (outChars (build_styled_content ['a', '\n', 'b']
          [⟨2, 3, Style.custom 1⟩])).get? 0 =
        some ('a', some (Style.custom 1)) ∧
      covered [⟨2, 3, Style.custom 1⟩] 2 ∧
      (outChars (build_styled_content ['a', '\n', 'b']
          [⟨2, 3, Style.custom 1⟩])).get? 2 =
        some ('b', some Style.plain) := by
  decide
